import Mathlib

/-!
Verification of the EnvFly CLI synchronization core.

This file gives a shallow embedding, in Lean 4, of the parts of the
EnvFly CLI repository that its specification talks about:

* the flat key-value snapshot model (JavaScript objects of string keys
  and string values, modelled as insertion-ordered association lists),
* the merge strategies of `EnvParser.mergeEnvironments`
  (src/lib/storage-providers.js),
* conflict detection (`EnvParser.detectConflicts`),
* the `.env` codec (`EnvParser.parseEnvContent`,
  `EnvParser.stringifyEnvContent`, `EnvParser.escapeValue`),
* the `CryptoManager` encrypt/decrypt pipeline (src/lib/crypto.js),
  with the Node `crypto` and `JSON` built-ins idealized as collision-free
  primitives,
* the Mongoose `Environment` schema methods of the backend
  (`addAuditLog`, `createVersion`, `rollbackToVersion`, and the
  pre-save secret-encryption hook), and
* the local-file read path used by the `push` and `sync` commands.

Theorems about these definitions settle the specification's claims.
-/

set_option autoImplicit false

namespace EnvFly

/-! ## JavaScript object model

A JavaScript object with string keys and string values is modelled as an
insertion-ordered association list.  A well-formed object has no
duplicate keys (JavaScript objects cannot hold two properties of the
same name). -/

/-- A flat key-value snapshot: an insertion-ordered list of
(key, value) pairs of strings. -/
abbrev EnvObj := List (String × String)

/-- Property access `o[k]`: the value of the first pair whose key is `k`,
or `none` (JavaScript `undefined`) when the key is absent. -/
def oLookup (k : String) : EnvObj → Option String
  | [] => none
  | p :: ps => if p.1 = k then some p.2 else oLookup k ps

/-- The list of keys of an object, in insertion order. -/
def jsKeys (o : EnvObj) : List String := o.map Prod.fst

/-- JavaScript object spread `{ ...a, ...b }`: the keys of `a` keep their
position (with `b`'s value when `b` also defines the key), and the keys
only in `b` are appended in `b`'s order. -/
def spread (a b : EnvObj) : EnvObj :=
  (a.map fun p => (p.1, ((oLookup p.1 b).getD p.2))) ++
    b.filter fun p => (oLookup p.1 a).isNone

/-! ## Merge strategies

Embedding of `EnvParser.mergeEnvironments(localEnv, remoteEnv, strategy)`
(src/lib/storage-providers.js, lines 1362-1376).  The JavaScript throws on
an unknown strategy; this is modelled with `Except`. -/

/-- Embeds `EnvParser.mergeEnvironments`: a `switch` on the strategy,
returning a spread for the three known strategies and throwing
`Unknown merge strategy: ...` otherwise. -/
def mergeEnvironments (localEnv remoteEnv : EnvObj) (strategy : String) :
    Except String EnvObj :=
  if strategy = "local" then .ok (spread remoteEnv localEnv)
  else if strategy = "remote" then .ok (spread localEnv remoteEnv)
  else if strategy = "merge" then .ok (spread localEnv remoteEnv)
  else .error ("Unknown merge strategy: " ++ strategy)

/-- Calling `mergeEnvironments` with no third argument: the declared
default parameter value is the string `prompt`. -/
def mergeEnvironmentsDefault (localEnv remoteEnv : EnvObj) :
    Except String EnvObj :=
  mergeEnvironments localEnv remoteEnv "prompt"

/-! ## Conflict detection

Embedding of `EnvParser.detectConflicts(localEnv, remoteEnv)`
(src/lib/storage-providers.js, lines 1292-1322).  The JavaScript iterates
over `new Set([...Object.keys(localEnv), ...Object.keys(remoteEnv)])`
(first occurrences kept, insertion order) and classifies each key into
one of four lists. -/

/-- The result of `detectConflicts`: four lists built up in key order.
An `unchanged` entry stores an optional value because the JavaScript
stores `localValue`, which is `undefined` in the (unreachable for keys
of the union) both-absent branch. -/
structure ConflictSet where
  added : List (String × String)
  removed : List (String × String)
  modified : List (String × String × String)
  unchanged : List (String × Option String)
deriving DecidableEq

/-- JavaScript `Set` iteration order over a list: first occurrences are
kept, later duplicates dropped; `seen` holds the keys already emitted. -/
def dedupSeen (seen : List String) : List String → List String
  | [] => []
  | k :: ks =>
    if k ∈ seen then dedupSeen seen ks
    else k :: dedupSeen (k :: seen) ks

/-- One iteration of the classification loop in `detectConflicts`:
the four `if`/`else if` branches of the JavaScript. -/
def classifyKey (localEnv remoteEnv : EnvObj) (cs : ConflictSet)
    (k : String) : ConflictSet :=
  match oLookup k localEnv, oLookup k remoteEnv with
  | none, some rv => { cs with added := cs.added ++ [(k, rv)] }
  | some lv, none => { cs with removed := cs.removed ++ [(k, lv)] }
  | some lv, some rv =>
    if lv ≠ rv then { cs with modified := cs.modified ++ [(k, lv, rv)] }
    else { cs with unchanged := cs.unchanged ++ [(k, some lv)] }
  | none, none => { cs with unchanged := cs.unchanged ++ [(k, none)] }

/-- Embeds `EnvParser.detectConflicts`. -/
def detectConflicts (localEnv remoteEnv : EnvObj) : ConflictSet :=
  (dedupSeen [] (jsKeys localEnv ++ jsKeys remoteEnv)).foldl
    (classifyKey localEnv remoteEnv) ⟨[], [], [], []⟩

/-- The contribution of one key to the `added` list of
`detectConflicts localEnv remoteEnv`. -/
def addedOf (localEnv remoteEnv : EnvObj) (k : String) :
    Option (String × String) :=
  match oLookup k localEnv, oLookup k remoteEnv with
  | none, some rv => some (k, rv)
  | _, _ => none

/-- The contribution of one key to the `removed` list of
`detectConflicts localEnv remoteEnv`. -/
def removedOf (localEnv remoteEnv : EnvObj) (k : String) :
    Option (String × String) :=
  match oLookup k localEnv, oLookup k remoteEnv with
  | some lv, none => some (k, lv)
  | _, _ => none

/-- The contribution of one key to the `modified` list of
`detectConflicts localEnv remoteEnv`. -/
def modifiedOf (localEnv remoteEnv : EnvObj) (k : String) :
    Option (String × String × String) :=
  match oLookup k localEnv, oLookup k remoteEnv with
  | some lv, some rv => if lv ≠ rv then some (k, lv, rv) else none
  | _, _ => none

/-! ## Backend Environment schema model

The backend's Mongoose `environmentSchema` (backend/src/models) holds a
`variables` array, a `version` counter, an append-only `versionHistory`
and a bounded `auditLogs` array.  Documents are modelled as plain
structures; `save()` persistence is outside the model (the methods below
return the mutated document). -/

/-- One entry of the `variables` array of an environment document. -/
structure Variable where
  key : String
  value : String
  encrypted : Bool
  encryptedValue : Option String
  description : String
  isSecret : Bool
  tags : List String
deriving DecidableEq

/-- One entry of `versionHistory`: an immutable snapshot of the
variables plus metadata. -/
structure VersionRecord where
  version : Nat
  «variables» : List Variable
  message : String
  updatedBy : String
  changeType : String
deriving DecidableEq

/-- The data carried by one audit entry before the timestamp is added
(`action`, user identity, details). -/
structure AuditData where
  action : String
  userId : String
  userEmail : String
  userName : String
  details : String
deriving DecidableEq

/-- One entry of `auditLogs`: the audit data spread together with the
timestamp `addAuditLog` adds. -/
structure AuditEntry where
  data : AuditData
  timestamp : Nat
deriving DecidableEq

/-- An environment document (the fields the claims are about). -/
structure Environment where
  «variables» : List Variable
  version : Nat
  versionHistory : List VersionRecord
  auditLogs : List AuditEntry
deriving DecidableEq

/-- Embeds `environmentSchema.methods.addAuditLog`: push the entry (with
a fresh timestamp) and, when the array exceeds 1000 entries, keep only
the last 1000 (`this.auditLogs.slice(-1000)`). -/
def addAuditLog (logs : List AuditEntry) (auditData : AuditData)
    (now : Nat) : List AuditEntry :=
  let pushed := logs ++ [{ data := auditData, timestamp := now }]
  if 1000 < pushed.length then pushed.drop (pushed.length - 1000) else pushed

/-- The last `n` elements of a list (JavaScript `slice(-n)` when the
list is longer than `n`, else the whole list). -/
def lastN {α : Type} (n : Nat) (l : List α) : List α :=
  l.drop (l.length - n)

/-- Embeds `environmentSchema.methods.createVersion`: push a record with
`version = this.version + 1` and a deep copy of the current variables,
then bump `this.version`. -/
def createVersion (env : Environment) (message userId changeType : String) :
    Environment :=
  let versionData : VersionRecord :=
    { version := env.version + 1
      «variables» := env.variables
      message := message
      updatedBy := userId
      changeType := changeType }
  { env with
    versionHistory := env.versionHistory ++ [versionData]
    version := versionData.version }

/-- Embeds `environmentSchema.methods.rollbackToVersion`: find the
history record carrying the target version (throw
`Version <v> not found` when absent), restore its variables, bump the
version counter, and append a new rollback record. -/
def rollbackToVersion (env : Environment) (version : Nat)
    (userId : String) : Except String Environment :=
  match env.versionHistory.find? (fun v => v.version == version) with
  | none => .error ("Version " ++ toString version ++ " not found")
  | some targetVersion =>
    let newVariables := targetVersion.variables
    let newVersion := env.version + 1
    .ok { env with
      «variables» := newVariables
      version := newVersion
      versionHistory := env.versionHistory ++
        [{ version := newVersion
           «variables» := newVariables
           message := "Rollback to version " ++ toString version
           updatedBy := userId
           changeType := "update" }] }

/-- Embeds `environmentSchema.methods.encryptValue`, parameterized by
the cipher primitive: with no configured algorithm the value is returned
unchanged; otherwise the result is `ivHex:cipher(value)` (the Node
`crypto` cipher is a primitive, passed in as a function). -/
def encryptValue (algorithm : Option String) (cipher : String → String)
    (ivHex : String) (value : String) : String :=
  match algorithm with
  | none => value
  | some _ => ivHex ++ ":" ++ cipher value

/-- Embeds the `environmentSchema.pre('save')` hook body, parameterized
by the `encryptValue` primitive `encv`: every variable that is secret,
not yet encrypted and has a non-empty (truthy) value gets its ciphertext
stored in `encryptedValue`, is marked `encrypted`, and has its plaintext
`value` cleared. -/
def preSaveEncryptVariables (encv : String → String)
    (vars : List Variable) : List Variable :=
  vars.map fun v =>
    if v.isSecret ∧ v.encrypted = false ∧ v.value ≠ "" then
      { v with
        encryptedValue := some (encv v.value)
        encrypted := true
        value := "" }
    else v

/-- The secret-at-rest invariant: no secret variable retains a plaintext
value without having been encrypted. -/
def secretsCleared (vars : List Variable) : Prop :=
  ∀ v ∈ vars, v.isSecret → v.encrypted = false → v.value = ""

/-- Concrete audit data used for evaluating `addAuditLog`. -/
def auditDataW : AuditData :=
  ⟨"update", "u", "u@x", "U", "d"⟩

/-- Concrete version record used for evaluating `rollbackToVersion`. -/
def versionRecordW : VersionRecord :=
  ⟨1, [], "m", "u", "create"⟩

/-- Concrete environment document used for evaluating
`rollbackToVersion`. -/
def envW : Environment :=
  ⟨[], 1, [versionRecordW], []⟩

/-- Concrete secret variable used for evaluating the pre-save hook. -/
def secretVarW : Variable :=
  ⟨"KEY", "s3cret", false, none, "", true, []⟩

/-! ## The `.env` codec

Embedding of `EnvParser.parseEnvContent`, `stringifyEnvContent` and
`escapeValue` (src/lib/storage-providers.js, lines 1149-1242).  Strings
are manipulated as character lists; the imperative index-driven loop of
`parseEnvContent` becomes a fuel-indexed recursion (the fuel is the
number of lines, which bounds the number of iterations). -/

/-- A JavaScript string, as its list of characters. -/
abbrev Str := List Char

/-- Whitespace for JavaScript `String.prototype.trim` (the characters
relevant to this codec). -/
def jsWs (c : Char) : Bool :=
  c == ' ' || c == '\t' || c == '\n' || c == '\r' || c == '\x0b' || c == '\x0c'

/-- JavaScript `content.split('\n')`. -/
def splitNl : Str → List Str
  | [] => [[]]
  | c :: cs =>
    if c = '\n' then [] :: splitNl cs
    else
      match splitNl cs with
      | [] => [[c]]
      | t :: ts => (c :: t) :: ts

/-- JavaScript `s.trim()`. -/
def jsTrim (l : Str) : Str :=
  ((l.dropWhile jsWs).reverse.dropWhile jsWs).reverse

/-- JavaScript `s.indexOf('=')`, as an option instead of `-1`. -/
def firstEqPos : Str → Option Nat
  | [] => none
  | c :: cs => if c = '=' then some 0 else (firstEqPos cs).map (· + 1)

/-- The quoted-value handling of `parseEnvContent`: when the value both
starts and ends with a double quote, or both starts and ends with a
single quote, `value.slice(1, -1)` strips them. -/
def stripQuotes (v : Str) : Str :=
  if (v.head? = some '"' ∧ v.getLast? = some '"') ∨
      (v.head? = some '\'' ∧ v.getLast? = some '\'') then
    (v.drop 1).dropLast
  else v

/-- The inner `while` loop of the multiline handling of
`parseEnvContent`: consume continuation lines while they end in a
backslash, then the first line that does not; returns the accumulated
continuation text and the remaining lines. -/
def contLines : List Str → Str × List Str
  | [] => ([], [])
  | l :: ls =>
    let t := jsTrim l
    if t.getLast? = some '\\' then
      let r := contLines ls
      (t.dropLast ++ r.1, r.2)
    else (t, ls)

/-- JavaScript `envObject[key] = value`: overwrite in place when the key
exists, else append. -/
def jsAssign (o : EnvObj) (k v : String) : EnvObj :=
  if (oLookup k o).isSome then
    o.map fun p => if p.1 = k then (p.1, v) else p
  else o ++ [(k, v)]

/-- The line loop of `EnvParser.parseEnvContent`: skip blank lines and
comments, split a data line on its first `=` (which must not be at
position 0), trim key and value, strip surrounding quotes, and splice
multiline continuations. -/
def parseEnvLines : Nat → EnvObj → List Str → EnvObj
  | 0, acc, _ => acc
  | _, acc, [] => acc
  | fuel + 1, acc, line :: rest =>
    let t := jsTrim line
    if t = [] then parseEnvLines fuel acc rest
    else if t.head? = some '#' then parseEnvLines fuel acc rest
    else
      match firstEqPos t with
      | some i =>
        if 0 < i then
          let key := jsTrim (t.take i)
          let v0 := jsTrim (t.drop (i + 1))
          let v1 := stripQuotes v0
          if v1.getLast? = some '\\' then
            let r := contLines rest
            parseEnvLines fuel
              (jsAssign acc (String.mk key)
                (String.mk (v1.dropLast ++ r.1))) r.2
          else
            parseEnvLines fuel (jsAssign acc (String.mk key) (String.mk v1)) rest
        else parseEnvLines fuel acc rest
      | none => parseEnvLines fuel acc rest

/-- Embeds `EnvParser.parseEnvContent`. -/
def parseEnvContent (content : String) : EnvObj :=
  let lines := splitNl content.data
  parseEnvLines lines.length [] lines

/-- The quoting condition of `EnvParser.escapeValue`. -/
def needsQuote (v : Str) : Bool :=
  v.any fun c =>
    c == ' ' || c == '"' || c == '\'' || c == '#' || c == '$' || c == '\\'

/-- JavaScript `value.replace(/"/g, '\\"')`. -/
def escQuotes : Str → Str
  | [] => []
  | c :: cs => if c = '"' then '\\' :: '"' :: escQuotes cs else c :: escQuotes cs

/-- Embeds `EnvParser.escapeValue`: quote (escaping embedded double
quotes) when the value holds a space, quote, `#`, `$` or backslash. -/
def escapeValue (v : String) : String :=
  if needsQuote v.data then String.mk ('"' :: (escQuotes v.data ++ ['"']))
  else v

/-- Embeds `EnvParser.stringifyEnvContent` (without comments): one
`KEY=escapedValue` line per entry, joined by newlines, plus a trailing
newline. -/
def stringifyEnvContent (o : EnvObj) : String :=
  String.mk
    (List.intercalate ['\n']
      (o.map fun p => p.1.data ++ '=' :: (escapeValue p.2).data) ++ ['\n'])

/-- The identifier test of `EnvParser.validateVariableName`
(`/^[A-Z_][A-Z0-9_]*$/i`): first character test. -/
def identStart (c : Char) : Bool := c.isAlpha || c == '_'

/-- The identifier test of `EnvParser.validateVariableName`: remaining
characters test. -/
def identRest (c : Char) : Bool := c.isAlphanum || c == '_'

/-- A key is identifier-like. -/
def isIdentKey (s : String) : Bool :=
  match s.data with
  | [] => false
  | c :: cs => identStart c && cs.all identRest

/-- A value character the codec round-trips verbatim: no whitespace and
none of the reserved characters space, double quote, single quote, `#`,
`$`, backslash. -/
def safeValueChar (c : Char) : Bool :=
  !(jsWs c || c == '"' || c == '\'' || c == '#' || c == '$' || c == '\\')

/-- A value that round-trips verbatim. -/
def isSafeValue (s : String) : Bool := s.data.all safeValueChar

/-! ## Local file reading for push and sync

`EnvParser.readEnvFile` (src/lib/storage-providers.js, lines 1247-1258)
throws when the file is missing; the `push` command
(src/commands/push.js, lines 79-95) catches that and fails, while the
`sync` command substitutes an empty object.  The file system is modelled
as a partial map from paths to contents. -/

/-- Embeds `EnvParser.readEnvFile`: throw
`Environment file not found` (wrapped by the outer catch) when the path
does not exist, else parse the content. -/
def readEnvFile (fs : String → Option String) (filePath : String) :
    Except String EnvObj :=
  match fs filePath with
  | none => .error ("Failed to read environment file: " ++
      ("Environment file not found: " ++ filePath))
  | some content => .ok (parseEnvContent content)

/-- Embeds the local-read step of `pushToEnvFly`
(src/commands/push.js, lines 79-95): a failed read aborts the push with
`Local environment file not found`. -/
def pushReadLocalEnv (fs : String → Option String)
    (filePath fileName : String) : Except String EnvObj :=
  match readEnvFile fs filePath with
  | .ok env => .ok env
  | .error _ => .error ("Local environment file not found: " ++ fileName)

/-- Embeds the local-read step of `syncEnvironment`
(src/commands/sync.js): a failed read leaves the initial `{}`. -/
def syncReadLocalEnv (fs : String → Option String)
    (filePath : String) : EnvObj :=
  match readEnvFile fs filePath with
  | .ok env => env
  | .error _ => []

/-! ## CryptoManager

Embedding of `CryptoManager.encrypt`/`decrypt` (src/lib/crypto.js).
The Node `crypto` primitives (PBKDF2-SHA512 key derivation and the
AES-256-GCM authenticated cipher) and the `JSON` serializer are not part
of the repository; they are idealized as collision-free, perfectly
authenticated operations on lists of numbers, keeping the structure of
the JavaScript pipeline (derive key from API key and salt, serialize the
object, run the AEAD cipher with associated data `envfly-cli`, store
ciphertext/iv/tag/salt/algorithm; decryption re-derives the key from the
blob's stored salt and verifies the tag before any plaintext is
produced). -/

/-- An injective encoding of a list of numbers into one number, used by
the idealized primitives. -/
def natOfList : List Nat → Nat
  | [] => 0
  | a :: l => Nat.pair a (natOfList l) + 1

/-- The character codes of a string. -/
def strCodes (s : String) : List Nat := s.data.map Char.toNat

/-- Modelled from the spec: `deriveKey` (PBKDF2 with SHA-512, salted),
idealized as a collision-free function of API key and salt. -/
def deriveKey (apiKey : String) (salt : Nat) : Nat :=
  Nat.pair (natOfList (strCodes apiKey)) salt

/-- The fixed associated data `Buffer.from('envfly-cli', 'utf8')`. -/
def aadBytes : List Nat := strCodes "envfly-cli"

/-- Modelled from the spec: the keystream half of the idealized AEAD
cipher (invertible masking by the key). -/
def gcmMask (key : Nat) (pt : List Nat) : List Nat := pt.map (· + key)

/-- Inverse of `gcmMask`. -/
def gcmUnmask (key : Nat) (ct : List Nat) : List Nat := ct.map (· - key)

/-- Modelled from the spec: the authentication tag of the idealized
AEAD cipher, a collision-free function of key, associated data and
ciphertext. -/
def gcmTag (key : Nat) (aad ct : List Nat) : Nat :=
  Nat.pair key (Nat.pair (natOfList aad) (natOfList ct))

/-- Modelled from the spec: AEAD decryption verifies the tag before
releasing any plaintext. -/
def aeadDecrypt (key : Nat) (aad ct : List Nat) (tag : Nat) :
    Option (List Nat) :=
  if gcmTag key aad ct = tag then some (gcmUnmask key ct) else none

/-- Modelled from the spec: `JSON.stringify` of a flat string object,
idealized as a length-prefixed injective serialization. -/
def encodeStr (s : String) : List Nat := (strCodes s).length :: strCodes s

/-- Serialization of a whole object. -/
def encodeObj : EnvObj → List Nat
  | [] => []
  | (k, v) :: rest => encodeStr k ++ (encodeStr v ++ encodeObj rest)

/-- Decoding of character codes back to a string. -/
def strOfCodes (l : List Nat) : String := String.mk (l.map Char.ofNat)

/-- Modelled from the spec: one step of `JSON.parse`, reading a
length-prefixed string. -/
def decodeStr : List Nat → Option (String × List Nat)
  | [] => none
  | n :: rest =>
    if n ≤ rest.length then some (strOfCodes (rest.take n), rest.drop n)
    else none

/-- Fuel-indexed object decoder (the fuel bounds the number of pairs). -/
def decodeObjFuel : Nat → List Nat → Option EnvObj
  | _, [] => some []
  | 0, _ :: _ => none
  | fuel + 1, x :: xs =>
    match decodeStr (x :: xs) with
    | none => none
    | some (k, r1) =>
      match decodeStr r1 with
      | none => none
      | some (v, r2) =>
        match decodeObjFuel fuel r2 with
        | none => none
        | some rest => some ((k, v) :: rest)

/-- Modelled from the spec: `JSON.parse` of a flat string object. -/
def decodeObj (l : List Nat) : Option EnvObj := decodeObjFuel l.length l

/-- The wire form produced by `CryptoManager.encrypt`:
`{encrypted, iv, tag, salt, algorithm}`. -/
structure EncryptedBlob where
  encrypted : List Nat
  iv : List Nat
  tag : Nat
  salt : Nat
  algorithm : String
deriving DecidableEq

/-- Embeds `CryptoManager.encrypt`: fail without an API key; otherwise
derive the key from a fresh random salt, generate a fresh random IV
(stored in the blob; the cipher object created by `createCipher` does
not consume it), serialize the data, run the AEAD cipher with associated
data `envfly-cli`, and return ciphertext, IV, tag, salt and algorithm.
The random salt and IV are inputs of the model. -/
def cryptoEncrypt (apiKey : Option String) (salt : Nat) (iv : List Nat)
    (data : EnvObj) : Except String EncryptedBlob :=
  match apiKey with
  | none => .error "Encryption failed: No API key available for encryption"
  | some k =>
    let key := deriveKey k salt
    let ct := gcmMask key (encodeObj data)
    .ok { encrypted := ct, iv := iv, tag := gcmTag key aadBytes ct,
          salt := salt, algorithm := "aes-256-gcm" }

/-- Embeds `CryptoManager.decrypt`: fail without an API key; reject a
blob whose algorithm is not `aes-256-gcm`; re-derive the key from the
blob's stored salt; verify the authentication tag (failure surfaces no
plaintext); deserialize the plaintext. -/
def cryptoDecrypt (apiKey : Option String) (blob : EncryptedBlob) :
    Except String EnvObj :=
  match apiKey with
  | none => .error "Decryption failed: No API key available for decryption"
  | some k =>
    if blob.algorithm ≠ "aes-256-gcm" then
      .error ("Decryption failed: Unsupported encryption algorithm: " ++
        blob.algorithm)
    else
      match aeadDecrypt (deriveKey k blob.salt) aadBytes
          blob.encrypted blob.tag with
      | none =>
        .error "Decryption failed: Unsupported state or unable to authenticate data"
      | some pt =>
        match decodeObj pt with
        | none => .error "Decryption failed: Unexpected end of JSON input"
        | some obj => .ok obj

/-- Flip bit `m` of entry `j` of a ciphertext. -/
def flipBitAt (l : List Nat) (j m : Nat) : List Nat :=
  l.set j ((l.getD j 0) ^^^ (1 <<< m))

/-- Concrete blob produced by `cryptoEncrypt` at API key `k`, salt 0,
empty IV and the snapshot `A=1`, used for evaluating tamper rejection. -/
def blobW : EncryptedBlob :=
  { encrypted := gcmMask (deriveKey "k" 0) (encodeObj [("A", "1")])
    iv := []
    tag := gcmTag (deriveKey "k" 0) aadBytes
      (gcmMask (deriveKey "k" 0) (encodeObj [("A", "1")]))
    salt := 0
    algorithm := "aes-256-gcm" }

end EnvFly

namespace EnvFly

/-! ## Theorems about the merge strategies -/

/-- C3: the third merge strategy is observationally equivalent to
remote precedence: for every pair of snapshots, merging with strategy
`merge` returns exactly the same snapshot as merging with strategy
`remote`. -/
theorem mergeEnvironments_merge_eq_remote (localEnv remoteEnv : EnvObj) :
    mergeEnvironments localEnv remoteEnv "merge" =
      mergeEnvironments localEnv remoteEnv "remote" := by
  simp [mergeEnvironments]

/-- C9: `mergeEnvironments` throws `Unknown merge strategy` for every
strategy outside `local`/`remote`/`merge`; in particular calling it with
no strategy argument always throws, because the declared default
strategy `prompt` is itself unhandled. -/
theorem mergeEnvironments_unknown_strategy :
    (∀ (l r : EnvObj) (s : String), s ≠ "local" → s ≠ "remote" →
      s ≠ "merge" →
      mergeEnvironments l r s = .error ("Unknown merge strategy: " ++ s)) ∧
    (∀ l r : EnvObj,
      mergeEnvironmentsDefault l r =
        .error ("Unknown merge strategy: " ++ "prompt")) := by
  constructor
  · intro l r s h1 h2 h3
    simp [mergeEnvironments, h1, h2, h3]
  · intro l r
    simp [mergeEnvironmentsDefault, mergeEnvironments]

/-- Witness for C9: the hypotheses hold at the concrete strategy
`prompt`, and the merge call indeed throws there. -/
theorem mergeEnvironments_unknown_strategy_witness :
    mergeEnvironments [] [] "prompt" =
      .error ("Unknown merge strategy: " ++ "prompt") :=
  mergeEnvironments_unknown_strategy.1 [] [] "prompt"
    (by decide) (by decide) (by decide)

/-! ## Lemmas about object lookup and key deduplication -/

theorem oLookup_eq_none_iff (k : String) (o : EnvObj) :
    oLookup k o = none ↔ k ∉ jsKeys o := by
  induction o with
  | nil => simp [oLookup, jsKeys]
  | cons p ps ih =>
    by_cases h : p.1 = k
    · simp [oLookup, jsKeys, h]
    · have h2 : ¬ k = p.1 := fun he => h he.symm
      simp [oLookup, jsKeys, h, h2, ih]

theorem oLookup_isSome_of_mem {k : String} {o : EnvObj}
    (h : k ∈ jsKeys o) : oLookup k o ≠ none := by
  intro hn; exact ((oLookup_eq_none_iff k o).mp hn) h

theorem mem_of_oLookup_isSome {k : String} {o : EnvObj}
    (h : oLookup k o ≠ none) : k ∈ jsKeys o := by
  by_contra hk; exact h ((oLookup_eq_none_iff k o).mpr hk)

theorem dedupSeen_congr (l : List String) :
    ∀ s₁ s₂ : List String, (∀ x, x ∈ s₁ ↔ x ∈ s₂) →
      dedupSeen s₁ l = dedupSeen s₂ l := by
  induction l with
  | nil => intro s₁ s₂ _; rfl
  | cons k ks ih =>
    intro s₁ s₂ h
    by_cases hk : k ∈ s₁
    · rw [dedupSeen, dedupSeen, if_pos hk, if_pos ((h k).mp hk)]
      exact ih s₁ s₂ h
    · rw [dedupSeen, dedupSeen, if_neg hk,
        if_neg (fun hc => hk ((h k).mpr hc))]
      refine congrArg (k :: ·) (ih _ _ ?_)
      intro x; simp [h x]

theorem dedupSeen_append (xs : List String) :
    ∀ (s : List String) (ys : List String),
      dedupSeen s (xs ++ ys) = dedupSeen s xs ++ dedupSeen (xs ++ s) ys := by
  induction xs with
  | nil => intro s ys; rfl
  | cons k ks ih =>
    intro s ys
    by_cases hk : k ∈ s
    · rw [List.cons_append, dedupSeen, if_pos hk, dedupSeen, if_pos hk,
        ih s ys]
      refine congrArg _ (dedupSeen_congr ys _ _ ?_)
      intro x
      constructor
      · intro hx; rcases List.mem_append.mp hx with h | h
        · exact List.mem_append.mpr (Or.inl (List.mem_cons_of_mem _ h))
        · exact List.mem_append.mpr (Or.inr h)
      · intro hx
        rcases List.mem_append.mp hx with h | h
        · rcases List.mem_cons.mp h with h | h
          · exact h ▸ List.mem_append.mpr (Or.inr hk)
          · exact List.mem_append.mpr (Or.inl h)
        · exact List.mem_append.mpr (Or.inr h)
    · rw [List.cons_append, dedupSeen, if_neg hk, dedupSeen, if_neg hk,
        List.cons_append, ih (k :: s) ys]
      refine congrArg _ (congrArg _ (dedupSeen_congr ys _ _ ?_))
      intro x; constructor
      · intro hx
        rcases List.mem_append.mp hx with h | h
        · exact List.mem_append.mpr (Or.inl (List.mem_cons_of_mem _ h))
        · rcases List.mem_cons.mp h with h | h
          · exact h ▸ List.mem_append.mpr (Or.inl (List.mem_cons_self _ _))
          · exact List.mem_append.mpr (Or.inr h)
      · intro hx
        rcases List.mem_append.mp hx with h | h
        · rcases List.mem_cons.mp h with h | h
          · exact h ▸ List.mem_append.mpr (Or.inr (List.mem_cons_self _ _))
          · exact List.mem_append.mpr (Or.inl h)
        · exact List.mem_append.mpr (Or.inr (List.mem_cons_of_mem _ h))

theorem dedupSeen_eq_filter {l : List String} (hl : l.Nodup) :
    ∀ s : List String, dedupSeen s l = l.filter (fun x => decide (x ∉ s)) := by
  induction l with
  | nil => intro s; rfl
  | cons k ks ih =>
    intro s
    have hkks : k ∉ ks := (List.nodup_cons.mp hl).1
    have hks : ks.Nodup := (List.nodup_cons.mp hl).2
    by_cases hk : k ∈ s
    · rw [dedupSeen, if_pos hk, ih hks s, List.filter_cons]
      simp [hk]
    · rw [dedupSeen, if_neg hk, ih hks (k :: s)]
      have hd : List.filter (fun x => decide (x ∉ s)) (k :: ks) =
          k :: List.filter (fun x => decide (x ∉ s)) ks := by
        simp [List.filter_cons, hk]
      rw [hd]
      refine congrArg _ (List.filter_congr ?_)
      intro x hx
      have hxk : x ≠ k := fun h => hkks (h ▸ hx)
      simp [List.mem_cons, hxk]

/-- The key order `detectConflicts a b` iterates over, for well-formed
objects: the keys of `a` followed by the keys only in `b`. -/
theorem dedupSeen_union {a b : EnvObj}
    (ha : (jsKeys a).Nodup) (hb : (jsKeys b).Nodup) :
    dedupSeen [] (jsKeys a ++ jsKeys b) =
      jsKeys a ++ (jsKeys b).filter (fun k => decide (k ∉ jsKeys a)) := by
  rw [dedupSeen_append, dedupSeen_eq_filter ha, dedupSeen_eq_filter hb]
  congr 1
  · simp
  · refine List.filter_congr ?_
    intro x _; simp

/-! ## Decomposing the classification loop -/

theorem foldl_classify_added (a b : EnvObj) (ks : List String) :
    ∀ cs : ConflictSet,
      (ks.foldl (classifyKey a b) cs).added =
        cs.added ++ ks.filterMap (addedOf a b) := by
  induction ks with
  | nil => intro cs; simp
  | cons k ks ih =>
    intro cs
    rw [List.foldl_cons, ih]
    rcases h1 : oLookup k a with _ | lv <;> rcases h2 : oLookup k b with _ | rv
    · simp [classifyKey, addedOf, h1, h2]
    · simp [classifyKey, addedOf, h1, h2]
    · simp [classifyKey, addedOf, h1, h2]
    · by_cases hv : lv = rv
      · simp [classifyKey, addedOf, h1, h2, hv]
      · simp [classifyKey, addedOf, h1, h2, hv]

theorem foldl_classify_removed (a b : EnvObj) (ks : List String) :
    ∀ cs : ConflictSet,
      (ks.foldl (classifyKey a b) cs).removed =
        cs.removed ++ ks.filterMap (removedOf a b) := by
  induction ks with
  | nil => intro cs; simp
  | cons k ks ih =>
    intro cs
    rw [List.foldl_cons, ih]
    rcases h1 : oLookup k a with _ | lv <;> rcases h2 : oLookup k b with _ | rv
    · simp [classifyKey, removedOf, h1, h2]
    · simp [classifyKey, removedOf, h1, h2]
    · simp [classifyKey, removedOf, h1, h2]
    · by_cases hv : lv = rv
      · simp [classifyKey, removedOf, h1, h2, hv]
      · simp [classifyKey, removedOf, h1, h2, hv]

theorem foldl_classify_modified (a b : EnvObj) (ks : List String) :
    ∀ cs : ConflictSet,
      (ks.foldl (classifyKey a b) cs).modified =
        cs.modified ++ ks.filterMap (modifiedOf a b) := by
  induction ks with
  | nil => intro cs; simp
  | cons k ks ih =>
    intro cs
    rw [List.foldl_cons, ih]
    rcases h1 : oLookup k a with _ | lv <;> rcases h2 : oLookup k b with _ | rv
    · simp [classifyKey, modifiedOf, h1, h2]
    · simp [classifyKey, modifiedOf, h1, h2]
    · simp [classifyKey, modifiedOf, h1, h2]
    · by_cases hv : lv = rv
      · simp [classifyKey, modifiedOf, h1, h2, hv]
      · simp [classifyKey, modifiedOf, h1, h2, hv]

theorem filterMap_filter_of_none {α β : Type} (f : α → Option β)
    (p : α → Bool) (l : List α)
    (h : ∀ x ∈ l, p x = false → f x = none) :
    (l.filter p).filterMap f = l.filterMap f := by
  induction l with
  | nil => rfl
  | cons x xs ih =>
    have ih2 := ih fun y hy hp => h y (List.mem_cons_of_mem _ hy) hp
    cases hp : p x
    · rw [List.filter_cons]
      simp [hp, List.filterMap_cons, h x (List.mem_cons_self _ _) hp, ih2]
    · rw [List.filter_cons]
      cases hf : f x <;> simp [hp, List.filterMap_cons, hf, ih2]

/-- Normal form of the `added` list for well-formed objects. -/
theorem detect_added_eq (a b : EnvObj)
    (ha : (jsKeys a).Nodup) (hb : (jsKeys b).Nodup) :
    (detectConflicts a b).added = (jsKeys b).filterMap (addedOf a b) := by
  rw [detectConflicts, dedupSeen_union ha hb, foldl_classify_added,
    List.filterMap_append]
  have h1 : (jsKeys a).filterMap (addedOf a b) = [] := by
    rw [List.filterMap_eq_nil_iff]
    intro k hk
    rcases Option.ne_none_iff_exists.mp (oLookup_isSome_of_mem hk) with ⟨v, hv⟩
    rcases h2 : oLookup k b with _ | rv <;> simp [addedOf, hv.symm, h2]
  have h2 : ((jsKeys b).filter fun k => decide (k ∉ jsKeys a)).filterMap
      (addedOf a b) = (jsKeys b).filterMap (addedOf a b) := by
    refine filterMap_filter_of_none _ _ _ ?_
    intro k _ hp
    have hk : k ∈ jsKeys a := by
      by_contra hc; simp [hc] at hp
    rcases Option.ne_none_iff_exists.mp (oLookup_isSome_of_mem hk) with ⟨v, hv⟩
    rcases h2 : oLookup k b with _ | rv <;> simp [addedOf, hv.symm, h2]
  rw [h1, h2]
  rfl

/-- Normal form of the `removed` list for well-formed objects. -/
theorem detect_removed_eq (a b : EnvObj)
    (ha : (jsKeys a).Nodup) (hb : (jsKeys b).Nodup) :
    (detectConflicts a b).removed = (jsKeys a).filterMap (removedOf a b) := by
  rw [detectConflicts, dedupSeen_union ha hb, foldl_classify_removed,
    List.filterMap_append]
  have h2 : ((jsKeys b).filter fun k => decide (k ∉ jsKeys a)).filterMap
      (removedOf a b) = [] := by
    rw [List.filterMap_eq_nil_iff]
    intro k hk
    have hk2 : k ∉ jsKeys a := by
      rcases List.mem_filter.mp hk with ⟨_, hp⟩
      simpa using hp
    have hn : oLookup k a = none := (oLookup_eq_none_iff k a).mpr hk2
    rcases h3 : oLookup k b with _ | rv <;> simp [removedOf, hn, h3]
  rw [h2]
  simp

/-- Normal form of the `modified` list for well-formed objects. -/
theorem detect_modified_eq (a b : EnvObj)
    (ha : (jsKeys a).Nodup) (hb : (jsKeys b).Nodup) :
    (detectConflicts a b).modified = (jsKeys a).filterMap (modifiedOf a b) := by
  rw [detectConflicts, dedupSeen_union ha hb, foldl_classify_modified,
    List.filterMap_append]
  have h2 : ((jsKeys b).filter fun k => decide (k ∉ jsKeys a)).filterMap
      (modifiedOf a b) = [] := by
    rw [List.filterMap_eq_nil_iff]
    intro k hk
    have hk2 : k ∉ jsKeys a := by
      rcases List.mem_filter.mp hk with ⟨_, hp⟩
      simpa using hp
    have hn : oLookup k a = none := (oLookup_eq_none_iff k a).mpr hk2
    rcases h3 : oLookup k b with _ | rv <;> simp [modifiedOf, hn, h3]
  rw [h2]
  simp

theorem addedOf_eq_removedOf_swap (a b : EnvObj) (k : String) :
    addedOf a b k = removedOf b a k := by
  rcases h1 : oLookup k a with _ | lv <;> rcases h2 : oLookup k b with _ | rv <;>
    simp [addedOf, removedOf, h1, h2]

theorem modifiedOf_swap (a b : EnvObj) (k : String) :
    (modifiedOf a b k).map (fun e => (e.1, e.2.2, e.2.1)) =
      modifiedOf b a k := by
  rcases h1 : oLookup k a with _ | lv <;> rcases h2 : oLookup k b with _ | rv <;>
    simp [modifiedOf, h1, h2]
  by_cases hv : lv = rv
  · simp [hv]
  · have hv2 : ¬ rv = lv := fun he => hv he.symm
    simp [hv, hv2]

theorem modifiedOf_key {a b : EnvObj} {k : String}
    {e : String × String × String} (h : modifiedOf a b k = some e) :
    e.1 = k := by
  rcases h1 : oLookup k a with _ | lv <;> rcases h2 : oLookup k b with _ | rv <;>
    simp only [modifiedOf, h1, h2] at h
  · exact absurd h (by simp)
  · exact absurd h (by simp)
  · exact absurd h (by simp)
  · by_cases hv : lv = rv
    · rw [if_neg (fun hne => hne hv)] at h
      exact absurd h (by simp)
    · rw [if_pos hv] at h
      rw [← Option.some.inj h]

/-- Keys appearing in a `modifiedOf` result belong to both objects. -/
theorem modifiedOf_mem_keys {a b : EnvObj} {k : String}
    {e : String × String × String} (h : modifiedOf a b k = some e) :
    k ∈ jsKeys a ∧ k ∈ jsKeys b := by
  rcases h1 : oLookup k a with _ | lv <;> rcases h2 : oLookup k b with _ | rv <;>
    simp only [modifiedOf, h1, h2] at h
  · exact absurd h (by simp)
  · exact absurd h (by simp)
  · exact absurd h (by simp)
  · constructor
    · exact mem_of_oLookup_isSome (by simp [h1])
    · exact mem_of_oLookup_isSome (by simp [h2])

/-- Membership in the modified list characterized without reference to
the key order. -/
theorem mem_filterMap_modifiedOf {a b : EnvObj}
    {e : String × String × String} {ks : List String}
    (hks : ∀ k, modifiedOf a b k = some e → k ∈ ks) :
    e ∈ ks.filterMap (modifiedOf a b) ↔ modifiedOf a b e.1 = some e := by
  rw [List.mem_filterMap]
  constructor
  · rintro ⟨k, _, hk⟩
    have := modifiedOf_key hk
    exact this ▸ hk
  · intro h
    exact ⟨e.1, hks e.1 h, h⟩

/-- C7: conflict detection is symmetric under swapping the two
snapshots — `added` and `removed` swap (same keys and values, as equal
lists), and the `modified` entries are the same up to exchanging
`localValue` with `remoteValue` (a permutation, entrywise swapped). -/
theorem detectConflicts_symm (a b : EnvObj)
    (ha : (jsKeys a).Nodup) (hb : (jsKeys b).Nodup) :
    (detectConflicts a b).added = (detectConflicts b a).removed ∧
    (detectConflicts a b).removed = (detectConflicts b a).added ∧
    List.Perm
      ((detectConflicts a b).modified.map (fun e => (e.1, e.2.2, e.2.1)))
      ((detectConflicts b a).modified) := by
  refine ⟨?_, ?_, ?_⟩
  · rw [detect_added_eq a b ha hb, detect_removed_eq b a hb ha]
    rw [funext (addedOf_eq_removedOf_swap a b)]
  · rw [detect_removed_eq a b ha hb, detect_added_eq b a hb ha]
    rw [funext (addedOf_eq_removedOf_swap b a)]
  · rw [detect_modified_eq a b ha hb, detect_modified_eq b a hb ha,
      List.map_filterMap]
    have he : (fun k => (modifiedOf a b k).map (fun e => (e.1, e.2.2, e.2.1)))
        = modifiedOf b a := funext (modifiedOf_swap a b)
    rw [he]
    have hinj : ∀ (k k2 : String) (e : String × String × String),
        e ∈ modifiedOf b a k → e ∈ modifiedOf b a k2 → k = k2 := by
      intro k k2 e h1 h2
      rw [Option.mem_def] at h1 h2
      rw [← modifiedOf_key h1, ← modifiedOf_key h2]
    have hn1 : ((jsKeys a).filterMap (modifiedOf b a)).Nodup :=
      List.Nodup.filterMap hinj ha
    have hn2 : ((jsKeys b).filterMap (modifiedOf b a)).Nodup :=
      List.Nodup.filterMap hinj hb
    rw [List.perm_ext_iff_of_nodup hn1 hn2]
    intro e
    rw [mem_filterMap_modifiedOf, mem_filterMap_modifiedOf]
    · intro k hk
      exact (modifiedOf_mem_keys hk).1
    · intro k hk
      exact (modifiedOf_mem_keys hk).2

/-- Witness for C7, at the specification's own scenario:
local is A=1,B=2 and remote is B=3,C=4. -/
theorem detectConflicts_symm_witness :
    (detectConflicts [("A", "1"), ("B", "2")] [("B", "3"), ("C", "4")]).added =
        (detectConflicts [("B", "3"), ("C", "4")] [("A", "1"), ("B", "2")]).removed ∧
    (detectConflicts [("A", "1"), ("B", "2")] [("B", "3"), ("C", "4")]).removed =
        (detectConflicts [("B", "3"), ("C", "4")] [("A", "1"), ("B", "2")]).added ∧
    List.Perm
      ((detectConflicts [("A", "1"), ("B", "2")] [("B", "3"), ("C", "4")]).modified.map
        (fun e => (e.1, e.2.2, e.2.1)))
      ((detectConflicts [("B", "3"), ("C", "4")] [("A", "1"), ("B", "2")]).modified) :=
  detectConflicts_symm [("A", "1"), ("B", "2")] [("B", "3"), ("C", "4")]
    (by decide) (by decide)

/-! ## Audit log bound -/

theorem lastN_lastN_append {α : Type} (n : Nat) (X Y : List α) :
    lastN n (lastN n X ++ Y) = lastN n (X ++ Y) := by
  simp only [lastN, List.length_append, List.length_drop,
    List.drop_append_eq_append_drop, List.drop_drop]
  congr 1
  · congr 1
    omega
  · congr 1
    omega

theorem lastN_length_le {α : Type} (n : Nat) (l : List α) :
    (lastN n l).length ≤ n := by
  simp only [lastN, List.length_drop]
  omega

/-- One `addAuditLog` step equals keeping the last 1000 entries of the
appended log, provided the log is already within the bound. -/
theorem addAuditLog_eq_lastN (logs : List AuditEntry) (d : AuditData)
    (now : Nat) (h : logs.length ≤ 1000) :
    addAuditLog logs d now =
      lastN 1000 (logs ++ [{ data := d, timestamp := now }]) := by
  rw [addAuditLog]
  by_cases hlen : 1000 < (logs ++ [({ data := d, timestamp := now } : AuditEntry)]).length
  · rw [if_pos hlen]
    rfl
  · rw [if_neg hlen]
    simp only [List.length_append, List.length_cons, List.length_nil] at hlen
    simp only [lastN]
    have : (logs ++ [({ data := d, timestamp := now } : AuditEntry)]).length - 1000 = 0 := by
      simp only [List.length_append, List.length_cons, List.length_nil]
      omega
    rw [this, List.drop_zero]

theorem foldl_addAuditLog (es : List (AuditData × Nat)) :
    ∀ L : List AuditEntry, L.length ≤ 1000 →
      List.foldl (fun logs e => addAuditLog logs e.1 e.2) L es =
        lastN 1000 (L ++ es.map fun e => { data := e.1, timestamp := e.2 }) := by
  induction es with
  | nil =>
    intro L hL
    simp only [List.foldl_nil, List.map_nil, List.append_nil, lastN,
      Nat.sub_eq_zero_of_le hL, List.drop_zero]
  | cons e es ih =>
    intro L hL
    rw [List.foldl_cons, addAuditLog_eq_lastN L e.1 e.2 hL,
      ih _ (lastN_length_le 1000 _), lastN_lastN_append]
    simp

/-- C5: starting from an empty audit log, the log always equals the
1000 most recent appended entries in order; after 1001 appends it holds
exactly 1000 entries and the entry of the first append has been evicted
(the retained log is the appended sequence minus its first entry, so the
oldest retained entry is append number 2). -/
theorem addAuditLog_bound :
    (∀ es : List (AuditData × Nat),
      List.foldl (fun logs e => addAuditLog logs e.1 e.2) [] es =
        lastN 1000 (es.map fun e => { data := e.1, timestamp := e.2 })) ∧
    (∀ es : List (AuditData × Nat), es.length = 1001 →
      (List.foldl (fun logs e => addAuditLog logs e.1 e.2) [] es).length = 1000 ∧
      List.foldl (fun logs e => addAuditLog logs e.1 e.2) [] es =
        (es.map fun e => ({ data := e.1, timestamp := e.2 } : AuditEntry)).drop 1) := by
  have hmain : ∀ es : List (AuditData × Nat),
      List.foldl (fun logs e => addAuditLog logs e.1 e.2) [] es =
        lastN 1000 (es.map fun e => { data := e.1, timestamp := e.2 }) := by
    intro es
    rw [foldl_addAuditLog es [] (by simp)]
    simp
  refine ⟨hmain, ?_⟩
  intro es hlen
  have h1 : (es.map fun e => ({ data := e.1, timestamp := e.2 } : AuditEntry)).length = 1001 := by
    simp [hlen]
  constructor
  · rw [hmain es]
    simp only [lastN, List.length_drop, h1]
  · rw [hmain es]
    simp only [lastN, h1]

/-- Witness for C5: a concrete run of 1001 appends. -/
theorem addAuditLog_bound_witness :
    (List.foldl (fun logs e => addAuditLog logs e.1 e.2) []
      ((List.range 1001).map fun i => (auditDataW, i))).length = 1000 ∧
    List.foldl (fun logs e => addAuditLog logs e.1 e.2) []
      ((List.range 1001).map fun i => (auditDataW, i)) =
      (((List.range 1001).map fun i => (auditDataW, i)).map
        fun e => ({ data := e.1, timestamp := e.2 } : AuditEntry)).drop 1 :=
  addAuditLog_bound.2 _ (by simp)

/-! ## Rollback semantics -/

/-- C4: under the documented invariant that the version counter bounds
every history version, `rollbackToVersion` fails with
`Version <v> not found` exactly when no history record carries version
`v`; on success it appends exactly one new record (the old history is a
prefix, so nothing is deleted or renumbered) whose variables equal those
stored for version `v`, carrying a version number strictly greater than
every version already in the history. -/
theorem rollbackToVersion_spec (env : Environment) (v : Nat)
    (userId : String)
    (hInv : ∀ r ∈ env.versionHistory, r.version ≤ env.version) :
    (rollbackToVersion env v userId =
        .error ("Version " ++ toString v ++ " not found") ↔
      ∀ r ∈ env.versionHistory, r.version ≠ v) ∧
    (∀ env2, rollbackToVersion env v userId = .ok env2 →
      ∃ target ∈ env.versionHistory, target.version = v ∧
        env2.versionHistory = env.versionHistory ++
          [{ version := env.version + 1
             «variables» := target.variables
             message := "Rollback to version " ++ toString v
             updatedBy := userId
             changeType := "update" }] ∧
        env2.variables = target.variables ∧
        env2.version = env.version + 1 ∧
        ∀ r ∈ env.versionHistory, r.version < env2.version) := by
  cases hf : env.versionHistory.find? (fun r => r.version == v) with
  | none =>
    have hall : ∀ r ∈ env.versionHistory, r.version ≠ v := by
      intro r hr
      have h2 := List.find?_eq_none.mp hf r hr
      simpa using h2
    constructor
    · rw [rollbackToVersion, hf]
      exact iff_of_true rfl hall
    · intro env2 h2
      rw [rollbackToVersion, hf] at h2
      exact absurd h2 (by simp)
  | some target =>
    have hmem : target ∈ env.versionHistory := List.mem_of_find?_eq_some hf
    have hver : target.version = v := by
      have h3 := List.find?_some hf
      simpa using h3
    constructor
    · rw [rollbackToVersion, hf]
      exact iff_of_false (by simp) (fun hall => hall target hmem hver)
    · intro env2 h2
      rw [rollbackToVersion, hf] at h2
      have he := Except.ok.inj h2
      refine ⟨target, hmem, hver, ?_, ?_, ?_, ?_⟩
      · rw [← he]
      · rw [← he]
      · rw [← he]
      · intro r hr
        rw [← he]
        exact Nat.lt_succ_of_le (hInv r hr)

/-- Witness for C4: a concrete document whose history holds version 1;
rolling back to version 1 succeeds and appends record number 2. -/
theorem rollbackToVersion_spec_witness :
    (rollbackToVersion envW 1 "u" =
        .error ("Version " ++ toString 1 ++ " not found") ↔
      ∀ r ∈ envW.versionHistory, r.version ≠ 1) ∧
    (∀ env2, rollbackToVersion envW 1 "u" = .ok env2 →
      ∃ target ∈ envW.versionHistory, target.version = 1 ∧
        env2.versionHistory = envW.versionHistory ++
          [{ version := envW.version + 1
             «variables» := target.variables
             message := "Rollback to version " ++ toString 1
             updatedBy := "u"
             changeType := "update" }] ∧
        env2.variables = target.variables ∧
        env2.version = envW.version + 1 ∧
        ∀ r ∈ envW.versionHistory, r.version < env2.version) :=
  rollbackToVersion_spec envW 1 "u" (by decide)

/-! ## Secret-at-rest invariant -/

theorem preSave_id_of_cleared (encv : String → String)
    (vars : List Variable) (h : secretsCleared vars) :
    preSaveEncryptVariables encv vars = vars := by
  induction vars with
  | nil => rfl
  | cons w ws ih =>
    have hw : ¬(w.isSecret ∧ w.encrypted = false ∧ w.value ≠ "") := by
      rintro ⟨h1, h2, h3⟩
      exact h3 (h w (List.mem_cons_self _ _) h1 h2)
    have hws : secretsCleared ws := fun u hu =>
      h u (List.mem_cons_of_mem _ hu)
    rw [preSaveEncryptVariables, List.map_cons, if_neg hw]
    rw [preSaveEncryptVariables] at ih
    rw [ih hws]

/-- C10: the pre-save hook establishes the secret-at-rest invariant
(no secret variable that is unencrypted retains a non-empty plaintext
value); every affected variable gets its ciphertext stored in
`encryptedValue`, is marked encrypted, and has its plaintext cleared;
and a save of an already-clean document preserves it unchanged. -/
theorem preSave_secret_invariant (encv : String → String)
    (vars : List Variable) :
    secretsCleared (preSaveEncryptVariables encv vars) ∧
    (∀ v ∈ vars, v.isSecret → v.encrypted = false → v.value ≠ "" →
      { v with
          encryptedValue := some (encv v.value)
          encrypted := true
          value := "" } ∈ preSaveEncryptVariables encv vars) ∧
    (secretsCleared vars → preSaveEncryptVariables encv vars = vars) := by
  refine ⟨?_, ?_, fun hclean => preSave_id_of_cleared encv vars hclean⟩
  · intro v hv hs he
    rcases List.mem_map.mp hv with ⟨w, hw, hmap⟩
    by_cases hc : w.isSecret ∧ w.encrypted = false ∧ w.value ≠ ""
    · rw [if_pos hc] at hmap
      rw [← hmap] at he
      simp at he
    · rw [if_neg hc] at hmap
      rw [← hmap] at hs he ⊢
      by_contra hne
      exact hc ⟨hs, he, hne⟩
  · intro v hv hs he hne
    refine List.mem_map.mpr ⟨v, hv, ?_⟩
    rw [if_pos ⟨hs, he, hne⟩]

/-! ## Push on a missing local file -/

/-- Counterexample for C8: with no file present, the push read path does
not proceed with an empty snapshot — it fails with
`Local environment file not found`. -/
theorem pushReadLocalEnv_missing_cex :
    pushReadLocalEnv (fun _ => none) ".env" ".env" ≠ Except.ok [] ∧
    pushReadLocalEnv (fun _ => none) ".env" ".env" =
      .error ("Local environment file not found: " ++ ".env") := by
  constructor
  · simp [pushReadLocalEnv, readEnvFile]
  · simp [pushReadLocalEnv, readEnvFile]

/-- C8 (amended): when the configured environment's local file does not
exist, `push` fails with a `Local environment file not found` error;
it is `sync` that substitutes an empty snapshot and proceeds. -/
theorem push_missing_file_fails (fs : String → Option String)
    (filePath fileName : String) (h : fs filePath = none) :
    pushReadLocalEnv fs filePath fileName =
      .error ("Local environment file not found: " ++ fileName) ∧
    syncReadLocalEnv fs filePath = [] := by
  constructor
  · simp [pushReadLocalEnv, readEnvFile, h]
  · simp [syncReadLocalEnv, readEnvFile, h]

/-- Witness for C8 (amended), at an empty file system. -/
theorem push_missing_file_fails_witness :
    pushReadLocalEnv (fun _ => none) "/p/.env" ".env" =
      .error ("Local environment file not found: " ++ ".env") ∧
    syncReadLocalEnv (fun _ => none) "/p/.env" = [] :=
  push_missing_file_fails (fun _ => none) "/p/.env" ".env" rfl

/-- Witness for C10: a concrete secret variable is transformed by the
hook, and a concrete already-clean list is left unchanged. -/
theorem preSave_secret_invariant_witness :
    secretsCleared (preSaveEncryptVariables (fun s => s) [secretVarW]) ∧
    ({ secretVarW with
        encryptedValue := some ((fun s => s) secretVarW.value)
        encrypted := true
        value := "" } ∈ preSaveEncryptVariables (fun s => s) [secretVarW]) ∧
    preSaveEncryptVariables (fun s => s) [] = [] :=
  ⟨(preSave_secret_invariant (fun s => s) [secretVarW]).1,
   (preSave_secret_invariant (fun s => s) [secretVarW]).2.1 secretVarW
     (List.mem_cons_self _ _) rfl rfl (by decide),
   (preSave_secret_invariant (fun s => s) []).2.2
     (fun v hv => absurd hv (List.not_mem_nil v))⟩

/-! ## Crypto lemmas -/

theorem natOfList_inj : ∀ {l1 l2 : List Nat},
    natOfList l1 = natOfList l2 → l1 = l2 := by
  intro l1
  induction l1 with
  | nil =>
    intro l2 h
    cases l2 with
    | nil => rfl
    | cons b m => exact absurd h.symm (by simp [natOfList])
  | cons a l ih =>
    intro l2 h
    cases l2 with
    | nil => exact absurd h (by simp [natOfList])
    | cons b m =>
      rw [natOfList, natOfList, Nat.add_right_cancel_iff,
        Nat.pair_eq_pair] at h
      rw [h.1, ih h.2]

theorem strCodes_inj {s1 s2 : String} (h : strCodes s1 = strCodes s2) :
    s1 = s2 := by
  have hinj : Function.Injective Char.toNat :=
    Function.LeftInverse.injective Char.ofNat_toNat
  have hdata : s1.data = s2.data :=
    (List.map_injective_iff.mpr hinj) h
  exact congrArg String.mk hdata

theorem deriveKey_inj {k1 k2 : String} {salt : Nat}
    (h : deriveKey k1 salt = deriveKey k2 salt) : k1 = k2 := by
  rw [deriveKey, deriveKey, Nat.pair_eq_pair] at h
  exact strCodes_inj (natOfList_inj h.1)

theorem gcmUnmask_gcmMask (key : Nat) (pt : List Nat) :
    gcmUnmask key (gcmMask key pt) = pt := by
  rw [gcmMask, gcmUnmask, List.map_map]
  have h : ((fun b => b - key) ∘ fun b => b + key) = id :=
    funext fun b => Nat.add_sub_cancel b key
  rw [h, List.map_id]

theorem strOfCodes_strCodes (s : String) : strOfCodes (strCodes s) = s := by
  rw [strOfCodes, strCodes, List.map_map]
  have h : (Char.ofNat ∘ Char.toNat) = id := funext Char.ofNat_toNat
  rw [h, List.map_id]

theorem decodeStr_encodeStr (s : String) (rest : List Nat) :
    decodeStr (encodeStr s ++ rest) = some (s, rest) := by
  rw [encodeStr, List.cons_append, decodeStr]
  rw [if_pos (by simp)]
  rw [List.take_left, List.drop_left, strOfCodes_strCodes]

theorem length_le_encodeObj (o : EnvObj) : o.length ≤ (encodeObj o).length := by
  induction o with
  | nil => simp [encodeObj]
  | cons p rest ih =>
    rw [encodeObj.eq_def]
    cases p with
    | mk k v =>
      simp only [encodeStr, List.length_append, List.length_cons]
      omega

theorem decodeObjFuel_encodeObj (o : EnvObj) :
    ∀ fuel, o.length ≤ fuel → decodeObjFuel fuel (encodeObj o) = some o := by
  induction o with
  | nil => intro fuel _; cases fuel <;> rfl
  | cons p rest ih =>
    intro fuel hf
    cases p with
    | mk k v =>
      cases fuel with
      | zero => exact absurd hf (by simp)
      | succ f =>
        have hstep : encodeObj ((k, v) :: rest) =
            encodeStr k ++ (encodeStr v ++ encodeObj rest) := rfl
        have hne : encodeStr k ++ (encodeStr v ++ encodeObj rest) =
            (strCodes k).length ::
              (strCodes k ++ (encodeStr v ++ encodeObj rest)) := by
          rw [encodeStr, List.cons_append]
        rw [hstep, hne, decodeObjFuel]
        rw [← List.cons_append, ← encodeStr]
        simp only [decodeStr_encodeStr, ih f (Nat.le_of_succ_le_succ hf)]

theorem decodeObj_encodeObj (o : EnvObj) : decodeObj (encodeObj o) = some o :=
  decodeObjFuel_encodeObj o (encodeObj o).length (length_le_encodeObj o)

/-- C1: encrypt-decrypt round trip — for every snapshot, every API key
and every choice of random salt and IV, encryption succeeds and
decryption with the same key succeeds and returns the original
snapshot (the key is re-derived from the blob's stored salt, and the
associated data `envfly-cli` matches). -/
theorem encrypt_decrypt_roundtrip (k : String) (salt : Nat) (iv : List Nat)
    (s : EnvObj) :
    ∃ blob, cryptoEncrypt (some k) salt iv s = Except.ok blob ∧
      cryptoDecrypt (some k) blob = Except.ok s := by
  refine ⟨_, rfl, ?_⟩
  show cryptoDecrypt (some k)
      { encrypted := gcmMask (deriveKey k salt) (encodeObj s), iv := iv,
        tag := gcmTag (deriveKey k salt) aadBytes
          (gcmMask (deriveKey k salt) (encodeObj s)),
        salt := salt, algorithm := "aes-256-gcm" } = Except.ok s
  rw [cryptoDecrypt]
  rw [if_neg (by simp)]
  rw [aeadDecrypt, if_pos rfl]
  simp only [gcmUnmask_gcmMask, decodeObj_encodeObj]

theorem flipBitAt_ne {l : List Nat} {j : Nat} (m : Nat) (h : j < l.length) :
    flipBitAt l j m ≠ l := by
  intro heq
  have hx : (l.set j (l.getD j 0 ^^^ 1 <<< m)).getD j 0 = l.getD j 0 := by
    rw [flipBitAt] at heq
    rw [heq]
  rw [List.getD_eq_getElem?_getD, List.getElem?_set_eq_of_lt _ h] at hx
  have hz : l.getD j 0 ^^^ 1 <<< m = l.getD j 0 := hx
  have hm : 1 <<< m = 0 := by
    have h2 := congrArg (fun t => l.getD j 0 ^^^ t) hz
    simp only [← Nat.xor_assoc, Nat.xor_self, Nat.zero_xor] at h2
    exact h2
  rw [Nat.shiftLeft_eq, Nat.one_mul] at hm
  exact absurd hm (Nat.pos_iff_ne_zero.mp (Nat.pos_pow_of_pos m (by norm_num)))

/-- C2: tamper rejection — for every blob produced by `encrypt`,
decrypting with any ciphertext bit flipped, or decrypting the unmodified
blob with a different API key, fails with the authentication error and
surfaces no plaintext (the error constructor carries no snapshot). -/
theorem decrypt_tamper_rejection (k : String) (salt : Nat) (iv : List Nat)
    (s : EnvObj) (blob : EncryptedBlob)
    (henc : cryptoEncrypt (some k) salt iv s = Except.ok blob) :
    (∀ j m, j < blob.encrypted.length →
      cryptoDecrypt (some k)
          { blob with encrypted := flipBitAt blob.encrypted j m } =
        .error "Decryption failed: Unsupported state or unable to authenticate data") ∧
    (∀ k2 : String, k2 ≠ k →
      cryptoDecrypt (some k2) blob =
        .error "Decryption failed: Unsupported state or unable to authenticate data") := by
  rw [cryptoEncrypt] at henc
  have hb := Except.ok.inj henc
  rw [← hb]
  constructor
  · intro j m hj
    have hflip : flipBitAt (gcmMask (deriveKey k salt) (encodeObj s)) j m ≠
        gcmMask (deriveKey k salt) (encodeObj s) := flipBitAt_ne m hj
    have htagne : gcmTag (deriveKey k salt) aadBytes
          (flipBitAt (gcmMask (deriveKey k salt) (encodeObj s)) j m) ≠
        gcmTag (deriveKey k salt) aadBytes
          (gcmMask (deriveKey k salt) (encodeObj s)) := by
      intro htag
      rw [gcmTag, gcmTag, Nat.pair_eq_pair, Nat.pair_eq_pair] at htag
      exact hflip (natOfList_inj htag.2.2)
    rw [cryptoDecrypt]
    rw [if_neg (by simp)]
    rw [aeadDecrypt, if_neg htagne]
  · intro k2 hk2
    have htagne : gcmTag (deriveKey k2 salt) aadBytes
          (gcmMask (deriveKey k salt) (encodeObj s)) ≠
        gcmTag (deriveKey k salt) aadBytes
          (gcmMask (deriveKey k salt) (encodeObj s)) := by
      intro htag
      rw [gcmTag, gcmTag, Nat.pair_eq_pair] at htag
      exact hk2 (deriveKey_inj htag.1)
    rw [cryptoDecrypt]
    rw [if_neg (by simp)]
    rw [aeadDecrypt, if_neg htagne]

/-! ## Codec character classes -/

theorem jsWs_iff (c : Char) : jsWs c = true ↔
    (c = ' ' ∨ c = '\t' ∨ c = '\n' ∨ c = '\r' ∨ c = '\x0b' ∨ c = '\x0c') := by
  simp [jsWs, or_assoc]

theorem identStart_not_ws {c : Char} (h : identStart c = true) :
    jsWs c = false := by
  cases hw : jsWs c
  · rfl
  · rcases (jsWs_iff c).mp hw with rfl | rfl | rfl | rfl | rfl | rfl <;>
      exact absurd h (by decide)

theorem identRest_not_ws {c : Char} (h : identRest c = true) :
    jsWs c = false := by
  cases hw : jsWs c
  · rfl
  · rcases (jsWs_iff c).mp hw with rfl | rfl | rfl | rfl | rfl | rfl <;>
      exact absurd h (by decide)

theorem safeValueChar_not_ws {c : Char} (h : safeValueChar c = true) :
    jsWs c = false := by
  cases hw : jsWs c
  · rfl
  · rw [safeValueChar, hw] at h
    simp at h

/-! ## Trim and head/last helpers -/

theorem mem_of_head?_eq_some {α : Type} {l : List α} {a : α}
    (h : l.head? = some a) : a ∈ l := by
  cases l with
  | nil => simp at h
  | cons x xs =>
    rw [List.head?_cons] at h
    exact (Option.some.inj h) ▸ List.mem_cons_self x xs

theorem mem_of_getLast?_eq_some {α : Type} {l : List α} {a : α}
    (h : l.getLast? = some a) : a ∈ l := by
  have h2 : a ∈ l.getLast? := Option.mem_def.mpr h
  rcases List.mem_getLast?_eq_getLast h2 with ⟨hne, rfl⟩
  exact List.getLast_mem hne

theorem dropWhile_eq_self_of_head (l : Str)
    (h : ∀ c, l.head? = some c → jsWs c = false) :
    l.dropWhile jsWs = l := by
  cases l with
  | nil => rfl
  | cons c cs => simp [List.dropWhile_cons, h c rfl]

theorem jsTrim_eq_self (l : Str)
    (h1 : ∀ c, l.head? = some c → jsWs c = false)
    (h2 : ∀ c, l.getLast? = some c → jsWs c = false) : jsTrim l = l := by
  rw [jsTrim, dropWhile_eq_self_of_head l h1,
    dropWhile_eq_self_of_head l.reverse
      (fun c hc => h2 c (by rwa [List.head?_reverse] at hc))]
  exact List.reverse_reverse l

theorem firstEqPos_of_append (k v : Str) (h : ∀ c ∈ k, c ≠ '=') :
    firstEqPos (k ++ '=' :: v) = some k.length := by
  induction k with
  | nil => simp [firstEqPos]
  | cons c cs ih =>
    rw [List.cons_append, firstEqPos,
      if_neg (h c (List.mem_cons_self _ _)),
      ih (fun x hx => h x (List.mem_cons_of_mem _ hx))]
    rfl

/-! ## The identity of escaping on safe values -/

theorem escapeValue_eq_self {v : String} (hv : isSafeValue v = true) :
    escapeValue v = v := by
  have hall : ∀ c ∈ v.data, safeValueChar c = true := by
    rw [isSafeValue] at hv
    exact fun c hc => List.all_eq_true.mp hv c hc
  have hnq : needsQuote v.data = false := by
    rw [needsQuote, List.any_eq_false]
    intro c hc
    have hs := hall c hc
    have hws := safeValueChar_not_ws hs
    have h1 : ¬ c = ' ' := fun he => by
      rw [he] at hws; exact absurd hws (by decide)
    have h2 : ¬ c = '"' := fun he => absurd (he ▸ hs) (by decide)
    have h3 : ¬ c = '\'' := fun he => absurd (he ▸ hs) (by decide)
    have h4 : ¬ c = '#' := fun he => absurd (he ▸ hs) (by decide)
    have h5 : ¬ c = '$' := fun he => absurd (he ▸ hs) (by decide)
    have h6 : ¬ c = '\\' := fun he => absurd (he ▸ hs) (by decide)
    simp [h1, h2, h3, h4, h5, h6]
  rw [escapeValue, hnq]
  rfl

/-! ## One parsing step on a safe line -/

theorem parse_step (fuel : Nat) (acc : EnvObj) (k v : String)
    (rest : List Str) (hk : isIdentKey k = true) (hv : isSafeValue v = true) :
    parseEnvLines (fuel + 1) acc ((k.data ++ '=' :: v.data) :: rest) =
      parseEnvLines fuel (jsAssign acc k v) rest := by
  have hkne : k.data ≠ [] := by
    intro he
    rw [isIdentKey, he] at hk
    exact absurd hk (by decide)
  obtain ⟨c0, cs, hkd⟩ := List.exists_cons_of_ne_nil hkne
  rw [isIdentKey, hkd, Bool.and_eq_true] at hk
  have hkchars : ∀ c ∈ k.data, identStart c = true ∨ identRest c = true := by
    rw [hkd]
    intro c hc
    rcases List.mem_cons.mp hc with rfl | hc
    · exact Or.inl hk.1
    · exact Or.inr (List.all_eq_true.mp hk.2 c hc)
  have hvchars : ∀ c ∈ v.data, safeValueChar c = true := by
    rw [isSafeValue] at hv
    exact fun c hc => List.all_eq_true.mp hv c hc
  have hkws : ∀ c ∈ k.data, jsWs c = false := fun c hc =>
    (hkchars c hc).elim identStart_not_ws identRest_not_ws
  have hknoteq : ∀ c ∈ k.data, c ≠ '=' := by
    intro c hc he
    rcases hkchars c hc with h | h <;> exact absurd (he ▸ h) (by decide)
  have hvws : ∀ c ∈ v.data, jsWs c = false := fun c hc =>
    safeValueChar_not_ws (hvchars c hc)
  have hhead : (k.data ++ '=' :: v.data).head? = some c0 := by
    rw [hkd]; rfl
  have hheadws : ∀ c, (k.data ++ '=' :: v.data).head? = some c →
      jsWs c = false := by
    intro c hc
    rw [hhead] at hc
    exact (Option.some.inj hc) ▸ identStart_not_ws hk.1
  have hlastws : ∀ c, (k.data ++ '=' :: v.data).getLast? = some c →
      jsWs c = false := by
    intro c hc
    rw [List.getLast?_append_of_ne_nil k.data
      (show '=' :: v.data ≠ [] by simp)] at hc
    rcases List.mem_cons.mp (mem_of_getLast?_eq_some hc) with rfl | hm
    · decide
    · exact hvws c hm
  have htrim : jsTrim (k.data ++ '=' :: v.data) = k.data ++ '=' :: v.data :=
    jsTrim_eq_self _ hheadws hlastws
  have hlne : k.data ++ '=' :: v.data ≠ [] := by rw [hkd]; simp
  have hhash : ¬ (k.data ++ '=' :: v.data).head? = some '#' := by
    rw [hhead]
    intro hc
    exact absurd ((Option.some.inj hc) ▸ hk.1) (by decide)
  have heqpos : firstEqPos (k.data ++ '=' :: v.data) = some k.data.length :=
    firstEqPos_of_append _ _ hknoteq
  have hpos : 0 < k.data.length := by rw [hkd]; simp
  have htake : (k.data ++ '=' :: v.data).take k.data.length = k.data :=
    List.take_left _ _
  have hdrop : (k.data ++ '=' :: v.data).drop (k.data.length + 1) = v.data := by
    rw [List.drop_append 1]
    rfl
  have hktrim : jsTrim k.data = k.data :=
    jsTrim_eq_self _ (fun c hc => hkws c (mem_of_head?_eq_some hc))
      (fun c hc => hkws c (mem_of_getLast?_eq_some hc))
  have hvtrim : jsTrim v.data = v.data :=
    jsTrim_eq_self _ (fun c hc => hvws c (mem_of_head?_eq_some hc))
      (fun c hc => hvws c (mem_of_getLast?_eq_some hc))
  have hstrip : stripQuotes v.data = v.data := by
    rw [stripQuotes, if_neg]
    rintro (⟨hq1, _⟩ | ⟨hq1, _⟩)
    · exact absurd (hvchars '"' (mem_of_head?_eq_some hq1)) (by decide)
    · exact absurd (hvchars '\'' (mem_of_head?_eq_some hq1)) (by decide)
  have hnobs : ¬ v.data.getLast? = some '\\' := by
    intro hc
    exact absurd (hvchars '\\' (mem_of_getLast?_eq_some hc)) (by decide)
  rw [parseEnvLines]
  simp only [htrim, hlne, hhash, heqpos, hpos, htake, hdrop, hktrim, hvtrim,
    hstrip, hnobs, if_false, if_true, ite_false, ite_true]

/-! ## Assignment and lookup over appended objects -/

theorem jsAssign_of_not_mem {acc : EnvObj} {k v : String}
    (h : oLookup k acc = none) : jsAssign acc k v = acc ++ [(k, v)] := by
  rw [jsAssign, h]
  rfl

theorem oLookup_append_none {k : String} {a b : EnvObj}
    (h1 : oLookup k a = none) (h2 : oLookup k b = none) :
    oLookup k (a ++ b) = none := by
  induction a with
  | nil => simpa using h2
  | cons p ps ih =>
    by_cases hp : p.1 = k
    · rw [oLookup, if_pos hp] at h1
      exact absurd h1 (by simp)
    · rw [oLookup, if_neg hp] at h1
      rw [List.cons_append, oLookup, if_neg hp]
      exact ih h1

/-! ## Splitting the stringified content back into lines -/

theorem splitNl_append_newline (l : Str) (rest : Str) (h : '\n' ∉ l) :
    splitNl (l ++ '\n' :: rest) = l :: splitNl rest := by
  induction l with
  | nil => simp [splitNl]
  | cons c cs ih =>
    have hc : ¬ c = '\n' := fun he => h (he ▸ List.mem_cons_self _ _)
    rw [List.cons_append, splitNl, if_neg hc,
      ih (fun hm => h (List.mem_cons_of_mem _ hm))]

theorem splitNl_intercalate (ls : List Str) (h : ∀ l ∈ ls, '\n' ∉ l)
    (hne : ls ≠ []) :
    splitNl (List.intercalate ['\n'] ls ++ ['\n']) = ls ++ [[]] := by
  induction ls with
  | nil => exact absurd rfl hne
  | cons a t ih =>
    cases t with
    | nil =>
      have ha : '\n' ∉ a := h a (List.mem_cons_self _ _)
      have hstep : List.intercalate ['\n'] [a] ++ ['\n'] = a ++ '\n' :: [] := by
        simp [List.intercalate, List.intersperse]
      rw [hstep, splitNl_append_newline a [] ha]
      rfl
    | cons b t2 =>
      have ha : '\n' ∉ a := h a (List.mem_cons_self _ _)
      have hstep : List.intercalate ['\n'] (a :: b :: t2) =
          a ++ '\n' :: List.intercalate ['\n'] (b :: t2) := by
        simp [List.intercalate, List.intersperse]
      have hassoc : (a ++ '\n' :: List.intercalate ['\n'] (b :: t2)) ++ ['\n'] =
          a ++ '\n' :: (List.intercalate ['\n'] (b :: t2) ++ ['\n']) := by
        simp
      rw [hstep, hassoc, splitNl_append_newline a _ ha,
        ih (fun l hl => h l (List.mem_cons_of_mem _ hl)) (by simp)]
      rfl

/-! ## The codec round trip -/

theorem parse_lines_of_safe (s : EnvObj) : ∀ (acc : EnvObj) (fuel : Nat),
    (∀ p ∈ s, isIdentKey p.1 = true) →
    (∀ p ∈ s, isSafeValue p.2 = true) →
    (∀ p ∈ s, oLookup p.1 acc = none) →
    (jsKeys s).Nodup →
    s.length + 1 ≤ fuel →
    parseEnvLines fuel acc
      ((s.map fun p => p.1.data ++ '=' :: p.2.data) ++ [[]]) = acc ++ s := by
  induction s with
  | nil =>
    intro acc fuel _ _ _ _ hf
    cases fuel with
    | zero => exact absurd hf (by simp)
    | succ f =>
      rw [List.map_nil, List.nil_append, parseEnvLines]
      cases f <;> simp [parseEnvLines, jsTrim]
  | cons p s' ih =>
    intro acc fuel hk hv hacc hnd hf
    cases fuel with
    | zero => exact absurd hf (by simp)
    | succ f =>
      have hpk : p.1 ∉ jsKeys s' := by
        rw [jsKeys, List.map_cons] at hnd
        exact (List.nodup_cons.mp hnd).1
      rw [List.map_cons, List.cons_append,
        parse_step f acc p.1 p.2 _ (hk p (List.mem_cons_self _ _))
          (hv p (List.mem_cons_self _ _)),
        jsAssign_of_not_mem (hacc p (List.mem_cons_self _ _)),
        ih (acc ++ [(p.1, p.2)]) f
          (fun q hq => hk q (List.mem_cons_of_mem _ hq))
          (fun q hq => hv q (List.mem_cons_of_mem _ hq))
          (fun q hq => by
            refine oLookup_append_none
              (hacc q (List.mem_cons_of_mem _ hq)) ?_
            have hne : ¬ p.1 = q.1 := fun he => by
              rw [he] at hpk
              exact hpk (List.mem_map.mpr ⟨q, hq, rfl⟩)
            rw [oLookup, if_neg hne]
            rfl)
          (by
            rw [jsKeys, List.map_cons] at hnd
            exact (List.nodup_cons.mp hnd).2)
          (by
            rw [List.length_cons] at hf
            omega)]
      rw [List.append_assoc]
      rfl

/-- C6 (amended): the codec round trip holds for snapshots with
identifier-like, pairwise-distinct keys whose values contain none of the
reserved characters (space, double quote, single quote, `#`, `$`,
backslash) and no whitespace characters at all (in particular no
newline, carriage return or tab): parsing the stringified snapshot
returns it unchanged. -/
theorem parse_stringify_roundtrip (s : EnvObj)
    (hkeys : ∀ p ∈ s, isIdentKey p.1 = true)
    (hvals : ∀ p ∈ s, isSafeValue p.2 = true)
    (hnodup : (jsKeys s).Nodup) :
    parseEnvContent (stringifyEnvContent s) = s := by
  rcases s with _ | ⟨p, s'⟩
  · rfl
  have hmap : ((p :: s').map fun q => q.1.data ++ '=' :: (escapeValue q.2).data) =
      (p :: s').map fun q => q.1.data ++ '=' :: q.2.data :=
    List.map_congr_left fun q hq => by rw [escapeValue_eq_self (hvals q hq)]
  have hnonl : ∀ l ∈ (p :: s').map fun q => q.1.data ++ '=' :: q.2.data,
      '\n' ∉ l := by
    intro l hl
    rcases List.mem_map.mp hl with ⟨q, hq, rfl⟩
    intro hmem
    rcases List.mem_append.mp hmem with hmem | hmem
    · have hkq := hkeys q hq
      have hne : q.1.data ≠ [] := by
        intro he
        rw [isIdentKey, he] at hkq
        exact absurd hkq (by decide)
      obtain ⟨c0, cs, hkd⟩ := List.exists_cons_of_ne_nil hne
      rw [isIdentKey, hkd, Bool.and_eq_true] at hkq
      rw [hkd] at hmem
      rcases List.mem_cons.mp hmem with he | hmem
      · exact absurd (he ▸ hkq.1) (by decide)
      · exact absurd (List.all_eq_true.mp hkq.2 '\n' hmem) (by decide)
    · rcases List.mem_cons.mp hmem with he | hmem
      · exact absurd he (by decide)
      · have hvq := hvals q hq
        rw [isSafeValue] at hvq
        exact absurd (List.all_eq_true.mp hvq _ hmem) (by decide)
  have hsplit : splitNl (stringifyEnvContent (p :: s')).data =
      ((p :: s').map fun q => q.1.data ++ '=' :: q.2.data) ++ [[]] := by
    show splitNl (List.intercalate ['\n']
        ((p :: s').map fun q => q.1.data ++ '=' :: (escapeValue q.2).data) ++
      ['\n']) = _
    rw [hmap]
    exact splitNl_intercalate _ hnonl (by simp)
  rw [parseEnvContent]
  simp only [hsplit]
  rw [parse_lines_of_safe (p :: s') [] _ hkeys hvals
    (fun q _ => rfl) hnodup (by simp)]
  rfl

/-- Witness for C6 (amended): a concrete safe snapshot round-trips. -/
theorem parse_stringify_roundtrip_witness :
    parseEnvContent (stringifyEnvContent
      [("API_KEY", "abc123"), ("B", "3"), ("C", "4")]) =
      [("API_KEY", "abc123"), ("B", "3"), ("C", "4")] :=
  parse_stringify_roundtrip [("API_KEY", "abc123"), ("B", "3"), ("C", "4")]
    (by decide) (by decide) (by decide)

/-- Counterexample for C6 as stated: the value `a\nb` contains none of
the listed reserved characters and the key `K` is identifier-like, yet
the round trip loses everything after the newline, because the
serialized form is split on newlines when re-parsed. -/
theorem parse_stringify_roundtrip_cex :
    isIdentKey "K" = true ∧
    (∀ c ∈ ("a\nb" : String).data,
      ¬(c = ' ' ∨ c = '"' ∨ c = '\'' ∨ c = '#' ∨ c = '$' ∨ c = '\\')) ∧
    parseEnvContent (stringifyEnvContent [("K", "a\nb")]) = [("K", "a")] ∧
    parseEnvContent (stringifyEnvContent [("K", "a\nb")]) ≠ [("K", "a\nb")] := by
  decide

/-- Witness for C2: a concrete blob; flipping the low bit of the first
ciphertext entry, or decrypting with the key `q` instead of `k`, is
rejected. -/
theorem decrypt_tamper_rejection_witness :
    cryptoDecrypt (some "k")
        { blobW with encrypted := flipBitAt blobW.encrypted 0 0 } =
      .error "Decryption failed: Unsupported state or unable to authenticate data" ∧
    cryptoDecrypt (some "q") blobW =
      .error "Decryption failed: Unsupported state or unable to authenticate data" :=
  ⟨(decrypt_tamper_rejection "k" 0 [] [("A", "1")] blobW rfl).1 0 0
      (by decide),
   (decrypt_tamper_rejection "k" 0 [] [("A", "1")] blobW rfl).2 "q"
      (by decide)⟩

end EnvFly
